import Mathlib

/-!
Verification development for the kustomize-controller overlay generator
(controllers/kustomization_generator.go).

The Go functions are shallowly embedded as executable Lean definitions.
The staging directory is an explicit tree of named entries; stateful file
writes become explicit state passing; fallible operations return
`Except String`.  The external kustomize build engine (krusty) is consumed
as a pure function parameter, exactly as the controller treats it; the
external primitives it relies on (konfig file-name constants, crypto/sha1
hex digests, drone/envsubst expansion) are modelled as executable
definitions faithful to their documented behaviour.
-/

namespace KCtl

/-- Image override entry, mirroring kustypes.Image / kustomizev1.Image
(fields Name, NewName, NewTag). -/
structure Image where
  name : String
  newName : String
  newTag : String
deriving DecidableEq

/-- The kustomization document (kustypes.Kustomization), restricted to the
fields the generator reads or writes: TypeMeta (apiVersion/kind), Namespace,
Resources, Transformers, Images. -/
structure Kustomization where
  apiVersion : String
  kind : String
  nspace : String
  resources : List String
  transformers : List String
  images : List Image
deriving DecidableEq

/-- kustypes.FieldSpec as used by the label transformer: a target path and
the create-if-not-present flag. -/
structure FieldSpec where
  path : String
  createIfNotPresent : Bool
deriving DecidableEq

/-- The anonymous label-transformer document built in generateLabelTransformer:
apiVersion, kind, metadata.name, labels and fieldSpecs. -/
structure LabelTransformer where
  apiVersion : String
  kind : String
  name : String
  labels : List (String × String)
  fieldSpecs : List FieldSpec
deriving DecidableEq

/-- Spec.PostBuild: the post-build substitution variables
(map modelled as an association list). -/
structure PostBuildSpec where
  substitute : List (String × String)
deriving DecidableEq

/-- The fields of kustomizev1.KustomizationSpec the generator uses:
TargetNamespace, Prune, Images, PostBuild. -/
structure KSpec where
  targetNamespace : String
  prune : Bool
  images : List Image
  postBuild : Option PostBuildSpec
deriving DecidableEq

/-- The Kustomization custom resource held by KustomizeGenerator: its object
name and namespace (GetName/GetNamespace) and its spec. -/
structure KustomizationCR where
  name : String
  nspace : String
  spec : KSpec
deriving DecidableEq

/-- Content of a file in the staging directory, by the way the generator can
interpret it: a marshalled kustomization document, a marshalled label
transformer, generic YAML content that does or does not decode into
Kubernetes documents (kunstruct SliceFromBytes), or any other bytes. -/
inductive FileContent where
  | kusDoc (k : Kustomization)
  | transformerDoc (t : LabelTransformer)
  | yaml (ok : Bool)
  | raw
deriving DecidableEq

mutual
/-- A node of the on-disk staging tree: a file with content, or a directory. -/
inductive FNode where
  | file (c : FileContent)
  | dir (es : Entries)
deriving DecidableEq

/-- The named entries of a directory, in the lexical order in which
filepath.Walk visits them. -/
inductive Entries where
  | nil
  | cons (name : String) (node : FNode) (rest : Entries)
deriving DecidableEq
end

/-- A path below the staging root, as a list of segments. -/
abbrev FPath := List String

def isFileNode : FNode → Bool
  | .file _ => true
  | .dir _ => false

/-- fs.Exists(path) && !fs.IsDir(path) for a name directly inside a directory. -/
def Entries.hasFile (es : Entries) (k : String) : Bool :=
  match es with
  | .nil => false
  | .cons n nd rest => (n = k && isFileNode nd) || rest.hasFile k

/-- First entry with the given name, when it is a file. -/
def Entries.lookupFile (es : Entries) (k : String) : Option FileContent :=
  match es with
  | .nil => Option.none
  | .cons n nd rest =>
    if n = k then
      match nd with
      | .file c => some c
      | .dir _ => Option.none
    else rest.lookupFile k

/-- Write a file: overwrite the entry of that name, or append a new one. -/
def Entries.setFile (es : Entries) (nm : String) (c : FileContent) : Entries :=
  match es with
  | .nil => .cons nm (.file c) .nil
  | .cons n nd rest =>
    if n = nm then .cons nm (.file c) rest else .cons n nd (rest.setFile nm c)

/-- Model of konfig.RecognizedKustomizationFileNames() from the external
kustomize library. -/
def recognizedKustomizationFileNames : List String :=
  ["kustomization.yaml", "kustomization.yml", "Kustomization"]

/-- Model of konfig.DefaultKustomizationFileName() from the external
kustomize library. -/
def defaultKustomizationFileName : String := "kustomization.yaml"

/-- Model of kustypes.KustomizationVersion. -/
def kustomizationVersion : String := "kustomize.config.k8s.io/v1beta1"

/-- Model of kustypes.KustomizationKind. -/
def kustomizationKind : String := "Kustomization"

/-- The loop over konfig.RecognizedKustomizationFileNames() checking
fs.Exists(kpath) && !fs.IsDir(kpath) at a directory. -/
def isRootKusPresent (es : Entries) : Bool :=
  recognizedKustomizationFileNames.any fun k => es.hasFile k

def listBeginsWith : List Char → List Char → Bool
  | [], _ => true
  | _ :: _, [] => false
  | c :: cs, d :: ds => c = d && listBeginsWith cs ds

def strEndsWith (n suf : String) : Bool :=
  listBeginsWith suf.data.reverse n.data.reverse

/-- containsString([".yaml", ".yml"}, filepath.Ext(path)): the file name ends
in a recognized YAML extension. -/
def hasYamlExt (n : String) : Bool :=
  strEndsWith n ".yaml" || strEndsWith n ".yml"

/-- Whether kunstruct SliceFromBytes succeeds on the file content: generic
YAML content carries its own decodability; documents the generator itself
marshals always decode. -/
def decodableContent : FileContent → Bool
  | .yaml ok => ok
  | _ => true

def pathStr (p : FPath) : String := String.intercalate "/" p

/-- The error produced for a file whose contents fail to decode. -/
def decodeErrMsg (p : FPath) : String :=
  "failed to decode Kubernetes YAML from " ++ pathStr p

/-- The recursive scan from generateKustomization: walk the tree in lexical
order; a sub-directory with a recognized kustomization file is recorded as a
single path and not descended into; other directories are descended into;
files with a YAML extension are decoded (failure aborts the walk with an
error naming the file) and recorded. -/
def scanEntries (pref : FPath) (es : Entries) : Except String (List FPath) :=
  match es with
  | .nil => .ok []
  | .cons n (.file c) rest =>
    if hasYamlExt n then
      if decodableContent c then
        do
          let ps ← scanEntries pref rest
          return (pref ++ [n]) :: ps
      else .error (decodeErrMsg (pref ++ [n]))
    else scanEntries pref rest
  | .cons n (.dir sub) rest =>
    if isRootKusPresent sub then
      do
        let ps ← scanEntries pref rest
        return (pref ++ [n]) :: ps
    else
      do
        let ps1 ← scanEntries (pref ++ [n]) sub
        let ps2 ← scanEntries pref rest
        return ps1 ++ ps2
termination_by structural es

/-- Some file reachable by the walk (not shielded by a sub-directory holding
its own kustomization file) has a YAML extension but fails to decode. -/
def existsInvalid (es : Entries) : Bool :=
  match es with
  | .nil => false
  | .cons n (.file c) rest =>
    (hasYamlExt n && !decodableContent c) || existsInvalid rest
  | .cons _n (.dir sub) rest =>
    (!isRootKusPresent sub && existsInvalid sub) || existsInvalid rest
termination_by structural es

mutual
/-- The path enters this named entry and names a walk-reachable file with a
YAML extension whose contents fail to decode. -/
def invalidHere (n : String) (nd : FNode) (p : FPath) : Bool :=
  match nd, p with
  | .file c, [m] => n = m && hasYamlExt n && !decodableContent c
  | .dir sub, m :: q => n = m && !isRootKusPresent sub && invalidAt sub q
  | _, _ => false
termination_by structural nd

/-- The path names a walk-reachable file with a YAML extension whose
contents fail to decode. -/
def invalidAt (es : Entries) (p : FPath) : Bool :=
  match es with
  | .nil => false
  | .cons n nd rest => invalidHere n nd p || invalidAt rest p
termination_by structural es
end

/-- strings.Replace(file, abs, ".", 1): a scanned path rendered relative to
the staging root. -/
def relPathStr (p : FPath) : String :=
  "." ++ String.join (p.map fun s => "/" ++ s)

/-- The kustomization document synthesized by generateKustomization: TypeMeta
plus the scanned resource list; all other fields zero. -/
def synthKus (rs : List String) : Kustomization :=
  { apiVersion := kustomizationVersion
    kind := kustomizationKind
    nspace := ""
    resources := rs
    transformers := []
    images := [] }

/-- generateKustomization: if a recognized kustomization file already exists
at the root, return with no change; otherwise scan the tree and write a
synthesized kustomization under the default file name. -/
def generateKustomization (root : Entries) : Except String Entries :=
  if isRootKusPresent root then .ok root
  else do
    let files ← scanEntries [] root
    .ok (root.setFile defaultKustomizationFileName
      (.kusDoc (synthKus (files.map relPathStr))))

/-- kustypes load restriction modes. -/
inductive LoadRestrictions where
  | rootOnly
  | unrestricted
deriving DecidableEq

/-- The part of the kustomize plugin configuration the contract cares about:
whether non-builtin plugins may execute. -/
structure PluginConfig where
  nonBuiltinPluginsEnabled : Bool
deriving DecidableEq

/-- Model of konfig.DisabledPluginConfig(): non-builtin plugin execution is
disabled. -/
def disabledPluginConfig : PluginConfig :=
  { nonBuiltinPluginsEnabled := false }

/-- krusty.Options fields set by buildKustomization. -/
structure KrustyOptions where
  useKyaml : Bool
  doLegacyResourceSort : Bool
  loadRestrictions : LoadRestrictions
  addManagedbyLabel : Bool
  doPrune : Bool
  pluginConfig : PluginConfig
  allowResourceIdChanges : Bool
deriving DecidableEq

/-- The options literal built inside buildKustomization. -/
def buildOptions : KrustyOptions :=
  { useKyaml := false
    doLegacyResourceSort := true
    loadRestrictions := .unrestricted
    addManagedbyLabel := false
    doPrune := false
    pluginConfig := disabledPluginConfig
    allowResourceIdChanges := false }

/-- The external build engine (krusty.MakeKustomizer + Run + ResMap.AsYaml),
consumed as a pure function from options and a staging tree to the
serialized multi-document manifest text. -/
abbrev BuildEngine := KrustyOptions → Entries → Except String String

/-- buildKustomization: invoke the engine with exactly the fixed options. -/
def buildKustomization (engine : BuildEngine) (root : Entries) :
    Except String String :=
  engine buildOptions root

/-- Model of one step of a content hash: deterministic mixing of a character
into the accumulator, truncated to 160 bits as sha1 digests are. -/
def hashStep (h : Nat) (c : Char) : Nat :=
  (h * 65599 + c.toNat + 1) % (2 ^ 160)

/-- Model of crypto/sha1: a deterministic 160-bit content digest of the
input text.  Only determinism and dependence on exactly the input bytes
matter to the generator; the concrete mixing is external library code. -/
def sha1Sum (s : String) : Nat := s.data.foldl hashStep 0

/-- The lowercase hex digit for a nibble, by character code. -/
def hexChar (n : Nat) : Char :=
  if n % 16 < 10 then Char.ofNat (48 + n % 16) else Char.ofNat (87 + n % 16)

def toHexAux : Nat → Nat → List Char → List Char
  | 0, _, acc => acc
  | k + 1, n, acc => toHexAux k (n / 16) (hexChar (n % 16) :: acc)

/-- fmt.Sprintf("%x", digest): the digest hex-encoded to 40 nibbles. -/
def sha1Hex (s : String) : String := String.mk (toHexAux 40 (sha1Sum s) [])

/-- Characters allowed inside a variable name by the expansion syntax. -/
def nameChar (c : Char) : Bool := c.isAlphanum || c = '_'

/-- Scanner state for the drone/envsubst expansion pass. -/
inductive SubMode where
  | plain
  | dollar
  | bare (acc : List Char)
  | bracedName (acc : List Char)
  | bracedOp (acc : List Char)
  | bracedDefault (acc : List Char) (dacc : List Char)

def accName (acc : List Char) : String := String.mk acc.reverse

/-- Model of drone/envsubst Eval over the manifest text: a single flat pass
expanding bare names after a dollar sign, braced names, and braced names
with a colon-equals default (the default is used when the mapped value is
empty); malformed expansion syntax is an error. -/
def evalAux (m : String → String) : SubMode → List Char → Except String (List Char)
  | .plain, [] => .ok []
  | .plain, c :: rest =>
    if c = '$' then evalAux m .dollar rest
    else (evalAux m .plain rest).map fun l => c :: l
  | .dollar, [] => .ok ['$']
  | .dollar, c :: rest =>
    if c = '\x7b' then evalAux m (.bracedName []) rest
    else if nameChar c then evalAux m (.bare [c]) rest
    else if c = '$' then (evalAux m .dollar rest).map fun l => '$' :: l
    else (evalAux m .plain rest).map fun l => '$' :: c :: l
  | .bare acc, [] => .ok (m (accName acc)).data
  | .bare acc, c :: rest =>
    if nameChar c then evalAux m (.bare (c :: acc)) rest
    else if c = '$' then
      (evalAux m .dollar rest).map fun l => (m (accName acc)).data ++ l
    else
      (evalAux m .plain rest).map fun l => (m (accName acc)).data ++ c :: l
  | .bracedName _, [] => .error "missing closing brace"
  | .bracedName acc, c :: rest =>
    if nameChar c then evalAux m (.bracedName (c :: acc)) rest
    else if c = '\x7d' then
      if acc.isEmpty then .error "bad substitution"
      else (evalAux m .plain rest).map fun l => (m (accName acc)).data ++ l
    else if c = ':' && !acc.isEmpty then evalAux m (.bracedOp acc) rest
    else .error "bad substitution"
  | .bracedOp _, [] => .error "missing closing brace"
  | .bracedOp acc, c :: rest =>
    if c = '=' then evalAux m (.bracedDefault acc []) rest
    else .error "bad substitution"
  | .bracedDefault _ _, [] => .error "missing closing brace"
  | .bracedDefault acc dacc, c :: rest =>
    if c = '\x7d' then
      (evalAux m .plain rest).map fun l =>
        (if m (accName acc) = "" then dacc.reverse else (m (accName acc)).data) ++ l
    else evalAux m (.bracedDefault acc (c :: dacc)) rest

/-- envsubst.Eval on the whole manifest text. -/
def evalSubst (m : String → String) (s : String) : Except String String :=
  (evalAux m .plain s.data).map String.mk

/-- The mapper passed to envsubst.Eval: a Go map lookup, returning the empty
string for an absent key. -/
def substMap (vars : List (String × String)) : String → String :=
  fun s => (vars.lookup s).getD ""

/-- runPostBuildActions: when post-build substitution variables are declared,
expand them across the manifest text; otherwise pass the text through. -/
def runPostBuildActions (kg : KustomizationCR) (manifests : String) :
    Except String String :=
  match kg.spec.postBuild with
  | Option.none => .ok manifests
  | some pb =>
    if 0 < pb.substitute.length then
      match evalSubst (substMap pb.substitute) manifests with
      | .ok out => .ok out
      | .error e => .error ("variable substitution failed: " ++ e)
    else .ok manifests

/-- Prefix an error message, as fmt.Errorf with a %w wrap does. -/
def wrapErr (pre : String) : Except String α → Except String α
  | .ok a => .ok a
  | .error e => .error (pre ++ e)

/-- checksum: synthesize the overlay configuration if needed, build it with
the engine, run the post-build substitutions, and hex-encode the content
digest of the result.  The returned tree is the staging state after the
synthesis step, threaded explicitly. -/
def checksum (engine : BuildEngine) (kg : KustomizationCR) (root : Entries) :
    Except String (String × Entries) := do
  let root1 ← wrapErr "kustomize create failed: " (generateKustomization root)
  let res ← wrapErr "kustomize build failed: " (buildKustomization engine root1)
  let res2 ← wrapErr "post-build actions failed: " (runPostBuildActions kg res)
  .ok (sha1Hex res2, root1)

def nameLabelKey : String := "kustomize.toolkit.fluxcd.io/name"

def namespaceLabelKey : String := "kustomize.toolkit.fluxcd.io/namespace"

def checksumLabelKey : String := "kustomize.toolkit.fluxcd.io/checksum"

/-- Modelled from the spec: selectorLabels (repository code not present
under src/) returns the owner selector labels, carrying the object name and
namespace. -/
def selectorLabels (name ns : String) : List (String × String) :=
  [(nameLabelKey, name), (namespaceLabelKey, ns)]

/-- Modelled from the spec: gcLabels (repository code not present under
src/) returns the selector labels together with the generation-token
(checksum) label. -/
def gcLabels (name ns cks : String) : List (String × String) :=
  selectorLabels name ns ++ [(checksumLabelKey, cks)]

def transformerFileName : String := "kustomization-gc-labels.yaml"

/-- The label-transformer document built by generateLabelTransformer:
selector labels, replaced by the GC labels when pruning is enabled, applied
at metadata/labels with create-if-not-present. -/
def mkLabelTransformer (kg : KustomizationCR) (cks : String) : LabelTransformer :=
  { apiVersion := "builtin"
    kind := "LabelTransformer"
    name := kg.name
    labels :=
      if kg.spec.prune then gcLabels kg.name kg.nspace cks
      else selectorLabels kg.name kg.nspace
    fieldSpecs := [{ path := "metadata/labels", createIfNotPresent := true }] }

/-- generateLabelTransformer: marshal the transformer document and write it
under the transformer file name at the staging root. -/
def generateLabelTransformer (kg : KustomizationCR) (cks : String)
    (root : Entries) : Entries :=
  root.setFile transformerFileName (.transformerDoc (mkLabelTransformer kg cks))

/-- The transformer-list update in WriteFile: start the list when empty,
skip when the transformer file name is already present, append otherwise. -/
def addTransformer (ts : List String) : List String :=
  if ts.length = 0 then [transformerFileName]
  else if ts.contains transformerFileName then ts
  else ts ++ [transformerFileName]

def imageIndexAux (images : List Image) (imageName : String) (i : Int) :
    Bool × Int :=
  match images with
  | [] => (false, -1)
  | img :: rest =>
    if imageName = img.name then (true, i) else imageIndexAux rest imageName (i + 1)

/-- checkKustomizeImageExists: whether an image with the name is present,
and at which index. -/
def checkKustomizeImageExists (images : List Image) (imageName : String) :
    Bool × Int :=
  imageIndexAux images imageName 0

/-- One iteration of the image-override loop in WriteFile: replace the
matching-by-name entry or append a new one. -/
def applyImage (l : List Image) (img : Image) : List Image :=
  let r := checkKustomizeImageExists l img.name
  if r.1 then l.set r.2.toNat img else l ++ [img]

def applyImages (specImages : List Image) (l : List Image) : List Image :=
  specImages.foldl applyImage l

/-- ioutil.ReadFile on a name at the staging root. -/
def readRootFile (root : Entries) (nm : String) : Except String FileContent :=
  match root.lookupFile nm with
  | some c => .ok c
  | Option.none => .error ("open " ++ nm ++ ": no such file or directory")

/-- yaml.Unmarshal of the read bytes into a kustypes.Kustomization. -/
def unmarshalKus : FileContent → Except String Kustomization
  | .kusDoc k => .ok k
  | _ => .error "error unmarshaling kustomization file"

/-- WriteFile: compute the checksum (which may synthesize the overlay
configuration), write the label transformer carrying it, then read the
default kustomization file back, add the transformer to its transformer
list, apply the namespace and image overrides, and write it out; the
checksum is returned as the generation token. -/
def WriteFile (engine : BuildEngine) (kg : KustomizationCR) (root : Entries) :
    Except String (String × Entries) := do
  let pr ← checksum engine kg root
  let root2 := generateLabelTransformer kg pr.1 pr.2
  let data ← readRootFile root2 defaultKustomizationFileName
  let kus0 ← unmarshalKus data
  let kus1 := { kus0 with transformers := addTransformer kus0.transformers }
  let kus2 :=
    if kg.spec.targetNamespace ≠ "" then { kus1 with nspace := kg.spec.targetNamespace }
    else kus1
  let kus3 := { kus2 with images := applyImages kg.spec.images kus2.images }
  .ok (pr.1, root2.setFile defaultKustomizationFileName (.kusDoc kus3))

/-- A decomposition of a manifest text into literal runs and variable
occurrences, used to state what the substitution pass does to every
occurrence across the entire text. -/
inductive Seg where
  | lit (s : String)
  | var (n : String)
  | varDef (n : String) (d : String)

/-- The concrete text of one segment. -/
def Seg.flat : Seg → List Char
  | .lit s => s.data
  | .var n => '$' :: '\x7b' :: (n.data ++ ['\x7d'])
  | .varDef n d => '$' :: '\x7b' :: (n.data ++ ':' :: '=' :: (d.data ++ ['\x7d']))

/-- What the spec says each segment expands to: literals unchanged, a braced
name to its mapped value, a defaulted name to the mapped value or the
default when the value is absent (empty). -/
def Seg.render (m : String → String) : Seg → List Char
  | .lit s => s.data
  | .var n => (m n).data
  | .varDef n d => if m n = "" then d.data else (m n).data

def flattenSegs (segs : List Seg) : List Char := (segs.map Seg.flat).flatten

def renderSegs (m : String → String) (segs : List Seg) : List Char :=
  (segs.map (Seg.render m)).flatten

/-- Well-formed decomposition: literal runs declare no variable, names are
nonempty runs of name characters, defaults contain no closing brace. -/
def Seg.WF : Seg → Prop
  | .lit s => '$' ∉ s.data
  | .var n => n.data ≠ [] ∧ ∀ c ∈ n.data, nameChar c
  | .varDef n d => n.data ≠ [] ∧ (∀ c ∈ n.data, nameChar c) ∧ '\x7d' ∉ d.data

instance : DecidablePred Seg.WF := fun s => by
  cases s <;> simp only [Seg.WF] <;> infer_instance

/-- Concatenation of directory entry lists. -/
def Entries.append : Entries → Entries → Entries
  | .nil, e2 => e2
  | .cons n nd r, e2 => .cons n nd (r.append e2)

/-- Whether an entry of the given name exists directly in the directory. -/
def Entries.hasName (es : Entries) (k : String) : Bool :=
  match es with
  | .nil => false
  | .cons n _ r => n = k || r.hasName k

/-- Entry names inside one directory are pairwise distinct, as they are on a
real filesystem. -/
def Entries.uniqNames (es : Entries) : Bool :=
  match es with
  | .nil => true
  | .cons n _ r => !r.hasName n && r.uniqNames

/-- The path lies strictly below the directory path. -/
def pathUnder (d p : FPath) : Prop := ∃ q, q ≠ [] ∧ p = d ++ q

/-- Lifting of a predicate on entry lists to a node: trivial on files, the
predicate on a directory's entries. -/
def FNode.deepP (P : Entries → Prop) : FNode → Prop
  | .file _ => True
  | .dir sub => P sub

/-- A plain spec with no overrides, no pruning and no post-build action,
used to instantiate theorems at concrete inputs. -/
def plainCR : KustomizationCR :=
  { name := "app", nspace := "ns", spec := { targetNamespace := "", prune := false, images := [], postBuild := Option.none } }

/-- A build engine stub returning a fixed serialized manifest, used to
instantiate theorems at concrete inputs. -/
def constEngine : BuildEngine := fun _ _ => .ok "res"

/-! General lemmas about the staging-tree operations. -/

/-- Deep induction over a directory tree: a step for files and a step for
sub-directories with the hypothesis available for their entries. -/
theorem Entries.deepInduction {P : Entries → Prop} (h0 : P .nil)
    (hf : ∀ n c rest, P rest → P (.cons n (.file c) rest))
    (hd : ∀ n sub rest, P sub → P rest → P (.cons n (.dir sub) rest)) :
    ∀ es , P es :=
  fun es =>
    @Entries.rec (FNode.deepP P) P
      (fun _ => trivial)
      (fun _ ih => ih)
      h0
      (fun n nd rest ihn ihr => by
        cases nd with
        | file c => exact hf n c rest ihr
        | dir sub => exact hd n sub rest ihn ihr)
      es

@[simp] theorem except_bind_ok {α β ε : Type} (a : α) (f : α → Except ε β) :
    (Except.ok a >>= f) = f a := rfl

@[simp] theorem except_bind_error {α β ε : Type} (e : ε) (f : α → Except ε β) :
    ((Except.error e : Except ε α) >>= f) = Except.error e := rfl

/-- Induction over the entry list of one directory, not descending into
sub-directories. -/
theorem Entries.consInduction {P : Entries → Prop} (h0 : P .nil)
    (h1 : ∀ n nd rest, P rest → P (.cons n nd rest)) : ∀ es, P es :=
  fun es =>
    @Entries.rec (fun _ => True) P (fun _ => trivial) (fun _ _ => trivial) h0
      (fun n nd rest _ ih => h1 n nd rest ih) es

theorem Entries.lookupFile_setFile_self (es : Entries) (nm : String)
    (c : FileContent) : (es.setFile nm c).lookupFile nm = some c := by
  induction es using Entries.consInduction with
  | h0 => simp [Entries.setFile, Entries.lookupFile]
  | h1 n nd rest ih =>
    by_cases h : n = nm
    · simp [Entries.setFile, Entries.lookupFile, h]
    · simp [Entries.setFile, Entries.lookupFile, h, ih]

theorem Entries.lookupFile_setFile_ne (es : Entries) (nm k : String)
    (c : FileContent) (h : nm ≠ k) :
    (es.setFile nm c).lookupFile k = es.lookupFile k := by
  induction es using Entries.consInduction with
  | h0 => simp [Entries.setFile, Entries.lookupFile, h]
  | h1 n nd rest ih =>
    by_cases hn : n = nm
    · subst hn
      simp [Entries.setFile, Entries.lookupFile, h, if_neg h]
    · have h2 : ¬ k = nm := fun e => h e.symm
      by_cases hk : n = k
      · simp [Entries.setFile, Entries.lookupFile, hn, hk, h2]
      · simp [Entries.setFile, Entries.lookupFile, hn, hk, h2, ih]

/-- A tree without a reachable invalid file scans successfully. -/
theorem scanEntries_ok_of_no_invalid :
    ∀ es, existsInvalid es = false → ∀ pref, ∃ ps, scanEntries pref es = .ok ps := by
  intro es
  induction es using Entries.deepInduction with
  | h0 => exact fun _ _ => ⟨[], rfl⟩
  | hf n c rest ih =>
    intro h pref
    rw [existsInvalid] at h
    simp only [Bool.or_eq_false_iff, Bool.and_eq_false_iff] at h
    by_cases hy : hasYamlExt n
    · have hdec : decodableContent c = true := by
        rcases h.1 with h1 | h1
        · rw [hy] at h1; cases h1
        · simpa using h1
      obtain ⟨ps, hps⟩ := ih h.2 pref
      refine ⟨(pref ++ [n]) :: ps, ?_⟩
      rw [scanEntries, if_pos hy, if_pos hdec, hps]
      rfl
    · obtain ⟨ps, hps⟩ := ih h.2 pref
      refine ⟨ps, ?_⟩
      rw [scanEntries, if_neg hy]
      exact hps
  | hd n sub rest ihs ihr =>
    intro h pref
    rw [existsInvalid] at h
    simp only [Bool.or_eq_false_iff, Bool.and_eq_false_iff] at h
    by_cases hk : isRootKusPresent sub
    · obtain ⟨ps, hps⟩ := ihr h.2 pref
      refine ⟨(pref ++ [n]) :: ps, ?_⟩
      rw [scanEntries, if_pos hk, hps]
      rfl
    · have hsub : existsInvalid sub = false := by
        rcases h.1 with h1 | h1
        · simp [hk] at h1
        · exact h1
      obtain ⟨ps1, hps1⟩ := ihs hsub (pref ++ [n])
      obtain ⟨ps2, hps2⟩ := ihr h.2 pref
      refine ⟨ps1 ++ ps2, ?_⟩
      rw [scanEntries, if_neg hk, hps1]
      simp [hps2]

/-- A tree with a reachable invalid file makes the scan abort with the
decode error naming such a file. -/
theorem scanEntries_error_of_invalid :
    ∀ es, existsInvalid es = true → ∀ pref, ∃ q,
      scanEntries pref es = .error (decodeErrMsg (pref ++ q)) ∧
      invalidAt es q = true := by
  intro es
  induction es using Entries.deepInduction with
  | h0 => intro h; cases h
  | hf n c rest ih =>
    intro h pref
    by_cases hbad : (hasYamlExt n && !decodableContent c) = true
    · refine ⟨[n], ?_, ?_⟩
      · obtain ⟨hy, hdec⟩ := Bool.and_eq_true_iff.mp hbad
        rw [scanEntries, if_pos hy, if_neg (by simpa using hdec)]
      · rw [invalidAt]
        simp only [Bool.or_eq_true_iff]
        left
        simp only [invalidHere]
        simpa using hbad
    · have hrest : existsInvalid rest = true := by
        rw [existsInvalid] at h
        rcases Bool.or_eq_true_iff.mp h with h1 | h1
        · exact absurd h1 hbad
        · exact h1
      obtain ⟨q, hq, hqa⟩ := ih hrest pref
      refine ⟨q, ?_, ?_⟩
      · by_cases hy : hasYamlExt n
        · have hbad2 : (hasYamlExt n && !decodableContent c) = false := by
            simpa using hbad
          have hdec : decodableContent c = true := by
            rcases Bool.and_eq_false_iff.mp hbad2 with h1 | h1
            · rw [hy] at h1; cases h1
            · simpa using h1
          rw [scanEntries, if_pos hy, if_pos hdec, hq]
          rfl
        · rw [scanEntries, if_neg hy]
          exact hq
      · rw [invalidAt]
        exact Bool.or_eq_true_iff.mpr (Or.inr hqa)
  | hd n sub rest ihs ihr =>
    intro h pref
    rw [existsInvalid] at h
    by_cases hk : isRootKusPresent sub
    · have hrest : existsInvalid rest = true := by
        rcases Bool.or_eq_true_iff.mp h with h1 | h1
        · rw [hk] at h1; simp at h1
        · exact h1
      obtain ⟨q, hq, hqa⟩ := ihr hrest pref
      refine ⟨q, ?_, ?_⟩
      · rw [scanEntries, if_pos hk, hq]
        rfl
      · rw [invalidAt]
        exact Bool.or_eq_true_iff.mpr (Or.inr hqa)
    · by_cases hsub : existsInvalid sub = true
      · obtain ⟨q, hq, hqa⟩ := ihs hsub (pref ++ [n])
        refine ⟨n :: q, ?_, ?_⟩
        · rw [scanEntries, if_neg hk, hq]
          simp [List.append_assoc]
        · rw [invalidAt]
          simp only [Bool.or_eq_true_iff]
          left
          simp [invalidHere, hk, hqa]
      · have hrest : existsInvalid rest = true := by
          rcases Bool.or_eq_true_iff.mp h with h1 | h1
          · rcases Bool.and_eq_true_iff.mp h1 with ⟨_, h2⟩
            exact absurd h2 hsub
          · exact h1
        obtain ⟨ps1, hps1⟩ :=
          scanEntries_ok_of_no_invalid sub (by simpa using hsub) (pref ++ [n])
        obtain ⟨q, hq, hqa⟩ := ihr hrest pref
        refine ⟨q, ?_, ?_⟩
        · rw [scanEntries, if_neg hk, hps1]
          simp [hq]
        · rw [invalidAt]
          exact Bool.or_eq_true_iff.mpr (Or.inr hqa)

/-- Scanning a concatenation of entry lists scans the two parts in order
and concatenates their paths, short-circuiting on the first error. -/
theorem scanEntries_append (pre : Entries) :
    ∀ (pref : FPath) (tail : Entries),
      scanEntries pref (pre.append tail) =
        do
          let a ← scanEntries pref pre
          let b ← scanEntries pref tail
          return a ++ b := by
  induction pre using Entries.deepInduction with
  | h0 =>
    intro pref tail
    rw [Entries.append]
    cases ht : scanEntries pref tail <;> simp [scanEntries, ht]
  | hf n c rest ih =>
    intro pref tail
    rw [Entries.append]
    by_cases hy : hasYamlExt n
    · by_cases hdec : decodableContent c
      · simp only [scanEntries, hy, hdec, if_true]
        rw [ih pref tail]
        cases h1 : scanEntries pref rest <;>
          cases h2 : scanEntries pref tail <;> simp
      · simp only [scanEntries, hy, hdec, if_true, Bool.false_eq_true, if_false]
        simp
    · simp only [scanEntries, hy, Bool.false_eq_true, if_false]
      exact ih pref tail
  | hd n sub rest ihs ihr =>
    intro pref tail
    rw [Entries.append]
    by_cases hk : isRootKusPresent sub
    · simp only [scanEntries, hk, if_true]
      rw [ihr pref tail]
      cases h1 : scanEntries pref rest <;>
        cases h2 : scanEntries pref tail <;> simp
    · simp only [scanEntries, hk, Bool.false_eq_true, if_false]
      rw [ihr pref tail]
      cases h0 : scanEntries (pref ++ [n]) sub <;>
        cases h1 : scanEntries pref rest <;>
          cases h2 : scanEntries pref tail <;> simp

/-- Every path produced by the scan of a directory starts with the prefix
followed by the name of one of the directory's entries. -/
theorem scanEntries_paths_shape :
    ∀ es, ∀ (pref : FPath) (ps : List FPath),
      scanEntries pref es = .ok ps →
      ∀ p ∈ ps, ∃ n2 q, p = pref ++ (n2 :: q) ∧ es.hasName n2 = true := by
  intro es
  induction es using Entries.deepInduction with
  | h0 =>
    intro pref ps h p hp
    rw [scanEntries] at h
    cases h
    cases hp
  | hf n c rest ih =>
    intro pref ps h p hp
    by_cases hy : hasYamlExt n
    · by_cases hdec : decodableContent c
      · rw [scanEntries, if_pos hy, if_pos hdec] at h
        cases hr : scanEntries pref rest with
        | error e => rw [hr] at h; simp at h
        | ok ps2 =>
          rw [hr] at h
          simp only [except_bind_ok] at h
          cases h
          rcases List.mem_cons.mp hp with hph | hpt
          · exact ⟨n, [], hph, by simp [Entries.hasName]⟩
          · obtain ⟨n2, q, hpe, hn2⟩ := ih pref ps2 hr p hpt
            exact ⟨n2, q, hpe, by simp [Entries.hasName, hn2]⟩
      · rw [scanEntries, if_pos hy, if_neg hdec] at h
        cases h
    · rw [scanEntries, if_neg hy] at h
      obtain ⟨n2, q, hpe, hn2⟩ := ih pref ps h p hp
      exact ⟨n2, q, hpe, by simp [Entries.hasName, hn2]⟩
  | hd n sub rest ihs ihr =>
    intro pref ps h p hp
    by_cases hk : isRootKusPresent sub
    · rw [scanEntries, if_pos hk] at h
      cases hr : scanEntries pref rest with
      | error e => rw [hr] at h; simp at h
      | ok ps2 =>
        rw [hr] at h
        simp only [except_bind_ok] at h
        cases h
        rcases List.mem_cons.mp hp with hph | hpt
        · exact ⟨n, [], hph, by simp [Entries.hasName]⟩
        · obtain ⟨n2, q, hpe, hn2⟩ := ihr pref ps2 hr p hpt
          exact ⟨n2, q, hpe, by simp [Entries.hasName, hn2]⟩
    · rw [scanEntries, if_neg hk] at h
      cases hs : scanEntries (pref ++ [n]) sub with
      | error e => rw [hs] at h; simp at h
      | ok ps1 =>
        cases hr : scanEntries pref rest with
        | error e => rw [hs, hr] at h; simp at h
        | ok ps2 =>
          rw [hs, hr] at h
          simp only [except_bind_ok] at h
          cases h
          rcases List.mem_append.mp hp with hp1 | hp2
          · obtain ⟨n3, q3, hpe, _⟩ := ihs (pref ++ [n]) ps1 hs p hp1
            refine ⟨n, n3 :: q3, ?_, by simp [Entries.hasName]⟩
            rw [hpe]
            simp
          · obtain ⟨n2, q, hpe, hn2⟩ := ihr pref ps2 hr p hp2
            exact ⟨n2, q, hpe, by simp [Entries.hasName, hn2]⟩

theorem Entries.hasName_append (a b : Entries) (k : String) :
    (a.append b).hasName k = (a.hasName k || b.hasName k) := by
  induction a using Entries.consInduction with
  | h0 => simp [Entries.append, Entries.hasName]
  | h1 n nd rest ih => simp [Entries.append, Entries.hasName, ih, Bool.or_assoc]

theorem Entries.uniqNames_append_parts (a : Entries) :
    ∀ b : Entries, (a.append b).uniqNames = true → b.uniqNames = true := by
  induction a using Entries.consInduction with
  | h0 => intro b h; exact h
  | h1 n nd rest ih =>
    intro b h
    rw [Entries.append, Entries.uniqNames] at h
    exact ih b (Bool.and_eq_true_iff.mp h).2

/-- In a directory with pairwise-distinct entry names, a name carried by the
appended tail entry occurs neither in the part before it nor after it. -/
theorem Entries.uniqNames_append_cons (a : Entries) :
    ∀ (b : Entries) (n : String) (nd : FNode),
      (a.append (.cons n nd b)).uniqNames = true →
      a.hasName n = false ∧ b.hasName n = false := by
  induction a using Entries.consInduction with
  | h0 =>
    intro b n nd h
    rw [Entries.append, Entries.uniqNames] at h
    refine ⟨rfl, ?_⟩
    simpa using (Bool.and_eq_true_iff.mp h).1
  | h1 m nd2 rest ih =>
    intro b n nd h
    rw [Entries.append, Entries.uniqNames] at h
    obtain ⟨hnm, huniq⟩ := Bool.and_eq_true_iff.mp h
    obtain ⟨hra, hb⟩ := ih b n nd huniq
    rw [Entries.hasName_append] at hnm
    have hcons : (Entries.cons n nd b).hasName m = false := by
      rcases Bool.or_eq_false_iff.mp (by simpa using hnm) with ⟨_, h2⟩
      exact h2
    rw [Entries.hasName] at hcons
    have hnme : ¬ n = m := by
      intro he
      rw [he] at hcons
      simp at hcons
    have hmn : ¬ m = n := fun he => hnme he.symm
    refine ⟨?_, hb⟩
    rw [Entries.hasName, hra]
    simp [hmn]

/-- The shape of a successful generateKustomization run: either the root
already had a recognized kustomization file and is returned untouched, or a
kustomization holding only TypeMeta and the scanned resources is written
under the default file name. -/
theorem generateKustomization_shape (root mid : Entries)
    (h : generateKustomization root = .ok mid) :
    (isRootKusPresent root = true ∧ mid = root) ∨
    (isRootKusPresent root = false ∧ ∃ rs,
      mid = root.setFile defaultKustomizationFileName (.kusDoc (synthKus rs))) := by
  by_cases hp : isRootKusPresent root
  · left
    refine ⟨hp, ?_⟩
    simp [generateKustomization, hp] at h
    exact h.symm
  · right
    refine ⟨by simpa using hp, ?_⟩
    rw [generateKustomization, if_neg hp] at h
    cases hs : scanEntries [] root with
    | error e => rw [hs] at h; simp at h
    | ok ps =>
      rw [hs] at h
      simp at h
      exact ⟨ps.map relPathStr, h.symm⟩

/-- A successful checksum run starts from a successful synthesis step whose
resulting tree is the one threaded out. -/
theorem checksum_ok_gen (engine : BuildEngine) (kg : KustomizationCR)
    (root : Entries) (t : String) (mid : Entries)
    (h : checksum engine kg root = .ok (t, mid)) :
    generateKustomization root = .ok mid := by
  rw [checksum] at h
  cases hg : generateKustomization root with
  | error e => rw [hg] at h; simp [wrapErr] at h
  | ok r1 =>
    rw [hg] at h
    simp only [wrapErr, except_bind_ok] at h
    cases hb : buildKustomization engine r1 with
    | error e => rw [hb] at h; simp [wrapErr] at h
    | ok res =>
      rw [hb] at h
      simp only [wrapErr, except_bind_ok] at h
      cases hp : runPostBuildActions kg res with
      | error e => rw [hp] at h; simp [wrapErr] at h
      | ok res2 =>
        rw [hp] at h
        simp only [wrapErr, except_bind_ok, Except.ok.injEq,
          Prod.mk.injEq] at h
        rw [← h.2]

/-! Claim theorems. -/

/-- Claim C1: when WriteFile succeeds, the generation token it returns is
exactly the checksum computed on the staging state before the label
transformer is generated: the transformer file is not yet present in the
built tree (when it was not present initially), and the kustomization file
seen by that build does not yet list the transformer (when the initial one,
if any, did not). -/
theorem writeFile_token_from_token_free_build (engine : BuildEngine)
    (kg : KustomizationCR) (root : Entries) (t : String) (out : Entries)
    (h : WriteFile engine kg root = .ok (t, out)) :
    ∃ mid, checksum engine kg root = .ok (t, mid) ∧
      (root.lookupFile transformerFileName = Option.none →
        mid.lookupFile transformerFileName = Option.none) ∧
      ((∀ k, root.lookupFile defaultKustomizationFileName = some (.kusDoc k) →
          transformerFileName ∉ k.transformers) →
        ∀ k2, mid.lookupFile defaultKustomizationFileName = some (.kusDoc k2) →
          transformerFileName ∉ k2.transformers) := by
  rw [WriteFile] at h
  cases hc : checksum engine kg root with
  | error e => rw [hc] at h; simp at h
  | ok pr =>
    obtain ⟨tok, mid⟩ := pr
    rw [hc] at h
    simp only [except_bind_ok] at h
    cases hd : readRootFile (generateLabelTransformer kg tok mid)
        defaultKustomizationFileName with
    | error e => rw [hd] at h; simp at h
    | ok data =>
      rw [hd] at h
      simp only [except_bind_ok] at h
      cases hu : unmarshalKus data with
      | error e => rw [hu] at h; simp at h
      | ok kus0 =>
        rw [hu] at h
        simp only [except_bind_ok, Except.ok.injEq, Prod.mk.injEq] at h
        have ht : tok = t := h.1
        subst ht
        have hgen := checksum_ok_gen engine kg root tok mid hc
        have hshape := generateKustomization_shape root mid hgen
        refine ⟨mid, rfl, ?_, ?_⟩
        · intro habs
          rcases hshape with ⟨_, hm⟩ | ⟨_, rs, hm⟩
          · rw [hm]; exact habs
          · rw [hm, Entries.lookupFile_setFile_ne root _ _ _ (by decide)]
            exact habs
        · intro hnone k2 hk2
          rcases hshape with ⟨_, hm⟩ | ⟨_, rs, hm⟩
          · rw [hm] at hk2
            exact hnone k2 hk2
          · rw [hm, Entries.lookupFile_setFile_self] at hk2
            simp only [Option.some.injEq, FileContent.kusDoc.injEq] at hk2
            rw [← hk2]
            simp [synthKus]

/-- Claim C1, witness: on a concrete empty staging tree the returned token
is the checksum of the pre-transformer state, which holds no transformer
file. -/
theorem writeFile_token_from_token_free_build_wit :
    Entries.nil.lookupFile transformerFileName = Option.none ∧
    ∃ t out mid, WriteFile constEngine plainCR .nil = .ok (t, out) ∧
      checksum constEngine plainCR .nil = .ok (t, mid) ∧
      mid.lookupFile transformerFileName = Option.none := by
  refine ⟨rfl, ?_⟩
  obtain ⟨pr, hpr⟩ : ∃ pr, WriteFile constEngine plainCR .nil = .ok pr :=
    ⟨_, rfl⟩
  obtain ⟨mid, h1, h2, _⟩ := writeFile_token_from_token_free_build constEngine
    plainCR .nil pr.1 pr.2 (by rw [hpr])
  exact ⟨pr.1, pr.2, mid, by rw [hpr], h1, h2 rfl⟩

/-- Claim C9: buildKustomization invokes the build engine with exactly the
fixed options: kyaml disabled, legacy resource sort enabled, load
restrictions disabled, managed-by label and prune off, non-builtin plugins
disabled, and resource-identity changes forbidden. -/
theorem buildKustomization_options_contract :
    buildOptions.useKyaml = false ∧
    buildOptions.doLegacyResourceSort = true ∧
    buildOptions.loadRestrictions = LoadRestrictions.unrestricted ∧
    buildOptions.addManagedbyLabel = false ∧
    buildOptions.doPrune = false ∧
    buildOptions.pluginConfig.nonBuiltinPluginsEnabled = false ∧
    buildOptions.allowResourceIdChanges = false ∧
    ∀ (engine : BuildEngine) (root : Entries),
      buildKustomization engine root = engine buildOptions root :=
  ⟨rfl, rfl, rfl, rfl, rfl, rfl, rfl, fun _ _ => rfl⟩

/-- Claim C6, counterexample: on a transformer list that already holds the
transformer file name twice, the update leaves the duplicate in place, so
the resulting list does contain a duplicate of the transformer file name. -/
theorem addTransformer_duplicate_cex :
    transformerFileName ∈ [transformerFileName, transformerFileName] ∧
    addTransformer [transformerFileName, transformerFileName] =
      [transformerFileName, transformerFileName] ∧
    ¬ (addTransformer [transformerFileName, transformerFileName]).count
        transformerFileName ≤ 1 := by
  decide

/-- Claim C6 (amended): the transformer-list update is idempotent: if the
transformer file name is already present the list is unchanged, otherwise it
is appended exactly once; and whenever the incoming list does not already
hold the name more than once, the result holds it exactly once. -/
theorem addTransformer_idempotent (ts : List String) :
    (transformerFileName ∈ ts → addTransformer ts = ts) ∧
    (transformerFileName ∉ ts → addTransformer ts = ts ++ [transformerFileName]) ∧
    (ts.count transformerFileName ≤ 1 →
      (addTransformer ts).count transformerFileName = 1) := by
  refine ⟨?_, ?_, ?_⟩
  · intro hm
    have hne : ¬ ts.length = 0 := by
      intro h0
      rw [List.length_eq_zero] at h0
      subst h0
      simp at hm
    simp [addTransformer, hne, hm]
  · intro hm
    by_cases h0 : ts.length = 0
    · rw [List.length_eq_zero] at h0
      subst h0
      simp [addTransformer]
    · simp [addTransformer, h0, hm]
  · intro hcount
    by_cases hm : transformerFileName ∈ ts
    · have hne : ¬ ts.length = 0 := by
        intro h0
        rw [List.length_eq_zero] at h0
        subst h0
        simp at hm
      have hpos : 0 < ts.count transformerFileName := List.count_pos_iff.mpr hm
      simp only [addTransformer, hne, if_false]
      rw [if_pos (List.elem_iff.mpr hm)]
      omega
    · have hz : ts.count transformerFileName = 0 := by
        simpa [List.count_eq_zero] using hm
      by_cases h0 : ts.length = 0
      · rw [List.length_eq_zero] at h0
        subst h0
        simp [addTransformer]
      · simp [addTransformer, h0, hm, List.count_append, hz]

/-- Claim C6, witness: on a list without the transformer file name the name
is appended exactly once; on a singleton list already holding it the list is
unchanged. -/
theorem addTransformer_idempotent_wit :
    addTransformer ["foo.yaml"] = ["foo.yaml", transformerFileName] ∧
    (addTransformer ["foo.yaml"]).count transformerFileName = 1 ∧
    addTransformer [transformerFileName] = [transformerFileName] :=
  ⟨(addTransformer_idempotent ["foo.yaml"]).2.1 (by decide),
   (addTransformer_idempotent ["foo.yaml"]).2.2 (by decide),
   (addTransformer_idempotent [transformerFileName]).1 (by decide)⟩

/-- Claim C4: the generated label transformer is written under the
transformer file name; its labels are the owner selector labels, extended by
the generation-token label exactly when pruning is enabled; and its field
spec targets metadata/labels with create-if-not-present set. -/
theorem generateLabelTransformer_shape (kg : KustomizationCR) (cks : String)
    (root : Entries) :
    (generateLabelTransformer kg cks root).lookupFile transformerFileName =
      some (.transformerDoc (mkLabelTransformer kg cks)) ∧
    (mkLabelTransformer kg cks).labels =
      selectorLabels kg.name kg.nspace ++
        (if kg.spec.prune then [(checksumLabelKey, cks)] else []) ∧
    ((checksumLabelKey, cks) ∈ (mkLabelTransformer kg cks).labels ↔
      kg.spec.prune = true) ∧
    (mkLabelTransformer kg cks).fieldSpecs =
      [{ path := "metadata/labels", createIfNotPresent := true }] := by
  refine ⟨Entries.lookupFile_setFile_self root transformerFileName _, ?_, ?_, rfl⟩
  · by_cases hp : kg.spec.prune <;>
      simp [mkLabelTransformer, gcLabels, hp]
  · by_cases hp : kg.spec.prune <;>
      simp [mkLabelTransformer, gcLabels, selectorLabels, hp,
        checksumLabelKey, nameLabelKey, namespaceLabelKey]

/-- Claim C5: when a recognized kustomization file already exists at the
staging root, generateKustomization returns immediately with the tree
untouched. -/
theorem generateKustomization_preexisting_noop (root : Entries)
    (h : isRootKusPresent root = true) :
    generateKustomization root = .ok root := by
  simp [generateKustomization, h]

/-- Claim C5, witness: a staging root holding a kustomization.yml file is
returned untouched. -/
theorem generateKustomization_preexisting_noop_wit :
    generateKustomization
        (.cons "kustomization.yml" (.file (.kusDoc (synthKus []))) .nil) =
      .ok (.cons "kustomization.yml" (.file (.kusDoc (synthKus []))) .nil) :=
  generateKustomization_preexisting_noop _ (by decide)

/-- Claim C2: the generation-token computation is deterministic: two runs of
checksum over an identical staging tree and an identical spec produce
identical results; and a successful token is exactly the hex-encoded content
digest of the engine's serialized output after post-build substitution. -/
theorem checksum_deterministic (engine : BuildEngine)
    (kg kg2 : KustomizationCR) (root root2 : Entries)
    (hk : kg = kg2) (hr : root = root2) :
    checksum engine kg root = checksum engine kg2 root2 ∧
    ∀ t mid, checksum engine kg root = .ok (t, mid) →
      ∃ res res2, buildKustomization engine mid = .ok res ∧
        runPostBuildActions kg res = .ok res2 ∧ t = sha1Hex res2 := by
  subst hk
  subst hr
  refine ⟨rfl, ?_⟩
  intro t mid h
  rw [checksum] at h
  cases hg : generateKustomization root with
  | error e => rw [hg] at h; simp [wrapErr] at h
  | ok root1 =>
    rw [hg] at h
    simp only [wrapErr, except_bind_ok] at h
    cases hb : buildKustomization engine root1 with
    | error e => rw [hb] at h; simp [wrapErr] at h
    | ok res =>
      rw [hb] at h
      simp only [wrapErr, except_bind_ok] at h
      cases hp : runPostBuildActions kg res with
      | error e => rw [hp] at h; simp [wrapErr] at h
      | ok res2 =>
        rw [hp] at h
        simp only [wrapErr, except_bind_ok, Except.ok.injEq, Prod.mk.injEq] at h
        obtain ⟨ht, hm⟩ := h
        subst hm
        exact ⟨res, res2, hb, hp, ht.symm⟩

/-- Claim C2, witness: the determinism theorem applied at a concrete engine,
spec and staging tree; the returned token is the digest of the substituted
build output. -/
theorem checksum_deterministic_wit :
    checksum constEngine plainCR .nil = checksum constEngine plainCR .nil ∧
    ∃ res res2,
      buildKustomization constEngine
          (Entries.nil.setFile defaultKustomizationFileName
            (.kusDoc (synthKus []))) = .ok res ∧
      runPostBuildActions plainCR res = .ok res2 ∧
      sha1Hex "res" = sha1Hex res2 := by
  have h := checksum_deterministic constEngine plainCR plainCR .nil .nil rfl rfl
  refine ⟨h.1, ?_⟩
  exact h.2 (sha1Hex "res")
    (Entries.nil.setFile defaultKustomizationFileName (.kusDoc (synthKus [])))
    (by rfl)

/-- Claim C10: when the staging root holds a recognized kustomization file
only under a non-default name, synthesis is skipped, the transformer write
leaves the default name absent, the read of the default file name fails, and
WriteFile returns an error. -/
theorem writeFile_nondefault_name_error (engine : BuildEngine)
    (kg : KustomizationCR) (root : Entries)
    (hrec : isRootKusPresent root = true)
    (hdef : root.lookupFile defaultKustomizationFileName = Option.none) :
    (∀ cks, readRootFile (generateLabelTransformer kg cks root)
        defaultKustomizationFileName =
      .error ("open " ++ defaultKustomizationFileName ++ ": no such file or directory")) ∧
    ∃ e, WriteFile engine kg root = .error e := by
  have hread : ∀ cks : String,
      readRootFile (generateLabelTransformer kg cks root)
          defaultKustomizationFileName =
        .error ("open " ++ defaultKustomizationFileName ++ ": no such file or directory") := by
    intro cks
    have hne : transformerFileName ≠ defaultKustomizationFileName := by decide
    rw [readRootFile, generateLabelTransformer,
      Entries.lookupFile_setFile_ne root transformerFileName
        defaultKustomizationFileName _ hne, hdef]
  refine ⟨hread, ?_⟩
  have hgen : generateKustomization root = .ok root := by
    simp [generateKustomization, hrec]
  rw [WriteFile, checksum, hgen]
  simp only [wrapErr, except_bind_ok]
  cases hb : buildKustomization engine root with
  | error e => exact ⟨"kustomize build failed: " ++ e, rfl⟩
  | ok res =>
    simp only [wrapErr, except_bind_ok]
    cases hp : runPostBuildActions kg res with
    | error e => exact ⟨"post-build actions failed: " ++ e, rfl⟩
    | ok res2 =>
      simp only [wrapErr, except_bind_ok, hread (sha1Hex res2)]
      exact ⟨"open " ++ defaultKustomizationFileName ++ ": no such file or directory", rfl⟩

@[simp] theorem except_map_ok {α β ε : Type} (a : α) (f : α → β) :
    (Except.ok a : Except ε α).map f = .ok (f a) := rfl

@[simp] theorem except_map_error {α β ε : Type} (e : ε) (f : α → β) :
    (Except.error e : Except ε α).map f = .error e := rfl

/-- A run of text without a dollar sign passes through the expansion scanner
unchanged. -/
theorem evalAux_plain_append (m : String → String) (l rest : List Char)
    (h : '$' ∉ l) :
    evalAux m .plain (l ++ rest) = (evalAux m .plain rest).map (l ++ ·) := by
  induction l with
  | nil =>
    cases hr : evalAux m .plain rest <;> simp [hr]
  | cons c l ih =>
    have hc : ¬ c = '$' := fun e => h (e ▸ List.mem_cons_self c l)
    have hl : '$' ∉ l := fun e => h (List.mem_cons_of_mem c e)
    rw [List.cons_append, evalAux, if_neg hc, ih hl]
    cases hr : evalAux m .plain rest <;> simp

/-- The scanner accumulates a run of name characters inside a braced
expansion. -/
theorem evalAux_bracedName_append (m : String → String) (nm : List Char) :
    ∀ (acc rest : List Char), (∀ c ∈ nm, nameChar c = true) →
    evalAux m (.bracedName acc) (nm ++ rest) =
      evalAux m (.bracedName (nm.reverse ++ acc)) rest := by
  induction nm with
  | nil => intro acc rest _; simp
  | cons c nm ih =>
    intro acc rest h
    have hc : nameChar c = true := h c (List.mem_cons_self c nm)
    rw [List.cons_append, evalAux, if_pos hc,
      ih (c :: acc) rest (fun d hd => h d (List.mem_cons_of_mem c hd))]
    simp

/-- The scanner accumulates the default text of a braced expansion up to the
closing brace. -/
theorem evalAux_bracedDefault_append (m : String → String) (d : List Char) :
    ∀ (acc dacc rest : List Char), '\x7d' ∉ d →
    evalAux m (.bracedDefault acc dacc) (d ++ rest) =
      evalAux m (.bracedDefault acc (d.reverse ++ dacc)) rest := by
  induction d with
  | nil => intro acc dacc rest _; simp
  | cons c d ih =>
    intro acc dacc rest h
    have hc : ¬ c = '\x7d' := fun e => h (e ▸ List.mem_cons_self c d)
    have hd : '\x7d' ∉ d := fun e => h (List.mem_cons_of_mem c e)
    rw [List.cons_append, evalAux, if_neg hc, ih acc (c :: dacc) rest hd]
    simp

/-- One well-formed braced variable occurrence expands to its mapped value
and scanning resumes after it. -/
theorem evalAux_var (m : String → String) (n : String) (rest : List Char)
    (hn : n.data ≠ []) (hc : ∀ c ∈ n.data, nameChar c = true) :
    evalAux m .plain (Seg.flat (.var n) ++ rest) =
      (evalAux m .plain rest).map ((m n).data ++ ·) := by
  have h1 : Seg.flat (.var n) ++ rest =
      '$' :: '\x7b' :: (n.data ++ ('\x7d' :: rest)) := by
    simp [Seg.flat]
  rw [h1, evalAux, if_pos rfl, evalAux, if_pos rfl,
    evalAux_bracedName_append m n.data [] ('\x7d' :: rest) hc]
  have hrb : nameChar '\x7d' = false := by decide
  have hne : (n.data.reverse ++ ([] : List Char)).isEmpty = false := by
    simp [List.isEmpty_iff, hn]
  rw [evalAux, hrb]
  simp [hn, accName]

/-- One well-formed braced variable occurrence with a default expands to the
mapped value, or to the default when the value is empty. -/
theorem evalAux_varDef (m : String → String) (n d : String) (rest : List Char)
    (hn : n.data ≠ []) (hc : ∀ c ∈ n.data, nameChar c = true)
    (hd : '\x7d' ∉ d.data) :
    evalAux m .plain (Seg.flat (.varDef n d) ++ rest) =
      (evalAux m .plain rest).map
        ((if m n = "" then d.data else (m n).data) ++ ·) := by
  have h1 : Seg.flat (.varDef n d) ++ rest =
      '$' :: '\x7b' :: (n.data ++ (':' :: '=' :: (d.data ++ ('\x7d' :: rest)))) := by
    simp [Seg.flat]
  rw [h1, evalAux, if_pos rfl, evalAux, if_pos rfl,
    evalAux_bracedName_append m n.data [] _ hc]
  have hcol : nameChar ':' = false := by decide
  have hne : (n.data.reverse ++ ([] : List Char)).isEmpty = false := by
    simp [List.isEmpty_iff, hn]
  rw [evalAux, hcol]
  have hcolrb : ¬ (':' : Char) = '\x7d' := by decide
  simp only [Bool.false_eq_true, if_false, if_neg hcolrb, hne, Bool.not_false,
    Bool.and_true, if_pos rfl]
  rw [evalAux, if_pos rfl,
    evalAux_bracedDefault_append m d.data _ [] ('\x7d' :: rest) hd,
    evalAux, if_pos rfl]
  have hacc : accName (n.data.reverse ++ []) = n := by
    simp [accName]
  rw [hacc]
  by_cases hv : m n = "" <;> simp [hv]

/-- Every occurrence across a well-formed decomposition of the text expands
as the spec describes. -/
theorem evalAux_flattenSegs (m : String → String) (segs : List Seg)
    (h : ∀ s ∈ segs, s.WF) :
    evalAux m .plain (flattenSegs segs) = .ok (renderSegs m segs) := by
  induction segs with
  | nil => simp [flattenSegs, renderSegs, evalAux]
  | cons s segs ih =>
    have hrest : evalAux m .plain (flattenSegs segs) = .ok (renderSegs m segs) :=
      ih fun t ht => h t (List.mem_cons_of_mem s ht)
    have hflat : flattenSegs (s :: segs) = Seg.flat s ++ flattenSegs segs := by
      simp [flattenSegs]
    have hrend : renderSegs m (s :: segs) =
        Seg.render m s ++ renderSegs m segs := by
      simp [renderSegs]
    have hs : s.WF := h s (List.mem_cons_self s segs)
    rw [hflat, hrend]
    cases s with
    | lit str =>
      rw [Seg.flat, evalAux_plain_append m str.data _ hs, hrest]
      simp [Seg.render]
    | var n =>
      obtain ⟨hn, hc⟩ := hs
      rw [evalAux_var m n _ hn (fun c hm => hc c hm), hrest]
      simp [Seg.render]
    | varDef n d =>
      obtain ⟨hn, hc, hd⟩ := hs
      rw [evalAux_varDef m n d _ hn (fun c hm => hc c hm) hd, hrest]
      simp [Seg.render]

/-- Claim C3: post-build substitution expands every braced occurrence across
a well-formed decomposition of the text to the mapped value, uses the
default of a colon-equals occurrence when the name is unmapped (the mapper
yields the empty string), expands unmapped names without a default to the
mapped empty string, passes text through unchanged when it declares no
variable or when no substitution map is declared, turns a malformed
expansion into a hard error, and on the example map region to eu-central-1
the occurrences of region and of env with default dev expand to
eu-central-1 and dev. -/
theorem runPostBuildActions_substitution :
    (∀ kg manifests, kg.spec.postBuild = Option.none →
      runPostBuildActions kg manifests = .ok manifests) ∧
    (∀ kg pb manifests, kg.spec.postBuild = some pb → pb.substitute = [] →
      runPostBuildActions kg manifests = .ok manifests) ∧
    (∀ (m : String → String) (s : String), '$' ∉ s.data →
      evalSubst m s = .ok s) ∧
    (∀ (m : String → String) (segs : List Seg), (∀ s ∈ segs, s.WF) →
      evalSubst m (String.mk (flattenSegs segs)) =
        .ok (String.mk (renderSegs m segs))) ∧
    (∀ kg pb manifests e, kg.spec.postBuild = some pb →
      0 < pb.substitute.length →
      evalSubst (substMap pb.substitute) manifests = .error e →
      runPostBuildActions kg manifests =
        .error ("variable substitution failed: " ++ e)) ∧
    (∀ m : String → String,
      evalSubst m "$\x7bregion" = .error "missing closing brace") ∧
    evalSubst (substMap [("region", "eu-central-1")])
        "a: $\x7bregion\x7d\nb: $\x7benv:=dev\x7d\n" =
      .ok "a: eu-central-1\nb: dev\n" ∧
    evalSubst (substMap [("region", "eu-central-1")]) "x$\x7bmissing\x7dy" =
      .ok "xy" := by
  refine ⟨?_, ?_, ?_, ?_, ?_, ?_, ?_, ?_⟩
  · intro kg manifests h
    simp [runPostBuildActions, h]
  · intro kg pb manifests h h2
    simp [runPostBuildActions, h, h2]
  · intro m s h
    have h2 : evalAux m .plain s.data = .ok s.data := by
      have h3 := evalAux_plain_append m s.data [] h
      rw [List.append_nil] at h3
      rw [h3, evalAux]
      simp
    rw [evalSubst, h2]
    simp
  · intro m segs h
    rw [evalSubst]
    have h2 : (String.mk (flattenSegs segs)).data = flattenSegs segs := rfl
    rw [h2, evalAux_flattenSegs m segs h]
    simp
  · intro kg pb manifests e h hlen herr
    simp [runPostBuildActions, h, hlen, herr]
  · intro m
    rfl
  · rfl
  · rfl

/-- Claim C3, witness: the general clauses applied at concrete inputs: a
spec without post-build passes text through, the empty substitute list
passes text through, dollar-free text is unchanged, a concrete well-formed
decomposition renders as specified, and a malformed text surfaces as a
wrapped hard error. -/
theorem runPostBuildActions_substitution_wit :
    runPostBuildActions plainCR "kind: Namespace" = .ok "kind: Namespace" ∧
    runPostBuildActions { plainCR with spec := { plainCR.spec with postBuild := some { substitute := [] } } } "a" = .ok "a" ∧
    evalSubst (substMap [("region", "eu-central-1")]) "plain text" =
      .ok "plain text" ∧
    evalSubst (substMap [("region", "eu-central-1")])
        (String.mk (flattenSegs [.lit "a: ", .var "region", .lit "\nb: ",
          .varDef "env" "dev", .lit "\n"])) =
      .ok (String.mk (renderSegs (substMap [("region", "eu-central-1")])
        [.lit "a: ", .var "region", .lit "\nb: ", .varDef "env" "dev",
          .lit "\n"])) ∧
    runPostBuildActions { plainCR with spec := { plainCR.spec with postBuild := some { substitute := [("region", "eu-central-1")] } } } "$\x7bregion" =
      .error ("variable substitution failed: " ++ "missing closing brace") := by
  refine ⟨?_, ?_, ?_, ?_, ?_⟩
  · exact runPostBuildActions_substitution.1 plainCR "kind: Namespace" rfl
  · exact runPostBuildActions_substitution.2.1 _ { substitute := [] } "a" rfl rfl
  · exact runPostBuildActions_substitution.2.2.1 _ "plain text" (by decide)
  · exact runPostBuildActions_substitution.2.2.2.1 _ _ (by decide)
  · exact runPostBuildActions_substitution.2.2.2.2.1 _
      { substitute := [("region", "eu-central-1")] } "$\x7bregion" _ rfl
      (by decide) (runPostBuildActions_substitution.2.2.2.2.2.1 _)

/-- Claim C7: when no kustomization file exists at the root and the scan
reaches a YAML-like file that fails to decode, the whole synthesis aborts
with an error naming such a file, and no synthesized configuration is
produced. -/
theorem generateKustomization_decode_error (root : Entries)
    (hroot : isRootKusPresent root = false)
    (hinv : existsInvalid root = true) :
    ∃ p, generateKustomization root = .error (decodeErrMsg p) ∧
      invalidAt root p = true ∧
      ∀ mid, generateKustomization root ≠ .ok mid := by
  obtain ⟨q, hq, hqa⟩ := scanEntries_error_of_invalid root hinv []
  have hgen : generateKustomization root = .error (decodeErrMsg q) := by
    rw [generateKustomization, if_neg (by simp [hroot]), hq]
    simp
  exact ⟨q, hgen, hqa, fun mid hmid => by rw [hgen] at hmid; cases hmid⟩

/-- Claim C7, witness: a staging root holding one undecodable YAML file
makes the synthesis abort. -/
theorem generateKustomization_decode_error_wit :
    ∃ p, generateKustomization (.cons "bad.yaml" (.file (.yaml false)) .nil) =
        .error (decodeErrMsg p) ∧
      invalidAt (.cons "bad.yaml" (.file (.yaml false)) .nil) p = true ∧
      ∀ mid, generateKustomization (.cons "bad.yaml" (.file (.yaml false)) .nil) ≠
        .ok mid :=
  generateKustomization_decode_error _ (by decide) (by decide)

/-- Claim C8: a sub-directory that holds a recognized kustomization file is
recorded by the scan as a single directory reference: the scan result does
not depend on anything else inside it, the directory's path is in the
resource list, and (names in the parent being distinct, as on a filesystem)
no produced path lies strictly below it. -/
theorem scan_skips_kustomization_subdir (pref : FPath)
    (pre post sub sub2 : Entries) (n : String)
    (hk : isRootKusPresent sub = true) (hk2 : isRootKusPresent sub2 = true) :
    scanEntries pref (pre.append (.cons n (.dir sub) post)) =
      scanEntries pref (pre.append (.cons n (.dir sub2) post)) ∧
    ∀ ps, scanEntries pref (pre.append (.cons n (.dir sub) post)) = .ok ps →
      (pref ++ [n]) ∈ ps ∧
      ((pre.append (.cons n (.dir sub) post)).uniqNames = true →
        ∀ p ∈ ps, ¬ pathUnder (pref ++ [n]) p) := by
  have htail : scanEntries pref (Entries.cons n (.dir sub) post) =
      scanEntries pref (Entries.cons n (.dir sub2) post) := by
    rw [scanEntries, if_pos hk]
    rw [scanEntries, if_pos hk2]
  constructor
  · rw [scanEntries_append pre pref (Entries.cons n (.dir sub) post),
      scanEntries_append pre pref (Entries.cons n (.dir sub2) post), htail]
  · intro ps hps
    rw [scanEntries_append pre pref _] at hps
    cases ha : scanEntries pref pre with
    | error e => rw [ha] at hps; simp at hps
    | ok a =>
      rw [ha] at hps
      simp only [except_bind_ok] at hps
      rw [scanEntries, if_pos hk] at hps
      cases hb : scanEntries pref post with
      | error e => rw [hb] at hps; simp at hps
      | ok b =>
        rw [hb] at hps
        simp only [except_bind_ok] at hps
        have hps2 : a ++ ((pref ++ [n]) :: b) = ps := by
          simpa [pure, Except.pure] using hps
        subst hps2
        constructor
        · exact List.mem_append.mpr (Or.inr (List.mem_cons_self _ _))
        · intro huniq p hp hunder
          obtain ⟨q, hqne, hpeq⟩ := hunder
          obtain ⟨hpre, hpost⟩ :=
            Entries.uniqNames_append_cons pre post n (.dir sub) huniq
          rcases List.mem_append.mp hp with hp1 | hp2
          · obtain ⟨n2, q2, hpe2, hn2⟩ :=
              scanEntries_paths_shape pre pref a ha p hp1
            rw [hpeq] at hpe2
            have h4 : pref ++ (n :: q) = pref ++ (n2 :: q2) := by
              simpa [List.append_assoc] using hpe2
            have h5 := List.append_cancel_left h4
            injection h5 with h6 _
            rw [← h6] at hn2
            rw [hn2] at hpre
            cases hpre
          · rcases List.mem_cons.mp hp2 with hph | hpt
            · rw [hph] at hpeq
              have h4 : (pref ++ [n]) ++ ([] : FPath) = (pref ++ [n]) ++ q := by
                simpa using hpeq
              exact hqne (List.append_cancel_left h4).symm
            · obtain ⟨n3, q3, hpe3, hn3⟩ :=
                scanEntries_paths_shape post pref b hb p hpt
              rw [hpeq] at hpe3
              have h4 : pref ++ (n :: q) = pref ++ (n3 :: q3) := by
                simpa [List.append_assoc] using hpe3
              have h5 := List.append_cancel_left h4
              injection h5 with h6 _
              rw [← h6] at hn3
              rw [hn3] at hpost
              cases hpost

/-- A sibling file entry preceding the sub-directory, used to instantiate
the scan theorem at a concrete tree. -/
def preW : Entries := .cons "a.yaml" (.file (.yaml true)) .nil

/-- A sub-directory holding its own kustomization file and one resource. -/
def subW : Entries :=
  .cons "kustomization.yaml" (.file (.kusDoc (synthKus [])))
    (.cons "inner.yaml" (.file (.yaml true)) .nil)

/-- A different sub-directory also holding its own kustomization file. -/
def subW2 : Entries :=
  .cons "Kustomization" (.file (.kusDoc (synthKus ["x"])))
    (.cons "other.yaml" (.file (.yaml false)) .nil)

/-- Claim C8, witness: at a concrete tree the two scans agree whatever the
guarded sub-directory holds, the directory path is recorded once, and no
recorded path descends below it. -/
theorem scan_skips_kustomization_subdir_wit :
    scanEntries [] (preW.append (.cons "d" (.dir subW) .nil)) =
      scanEntries [] (preW.append (.cons "d" (.dir subW2) .nil)) ∧
    ["d"] ∈ [["a.yaml"], ["d"]] ∧
    ∀ p ∈ [["a.yaml"], ["d"]], ¬ pathUnder ["d"] p := by
  have h := scan_skips_kustomization_subdir [] preW .nil subW subW2 "d"
    (by decide) (by decide)
  have h2 := h.2 [["a.yaml"], ["d"]] (by rfl)
  exact ⟨h.1, h2.1, h2.2 (by decide)⟩

/-- Claim C10, witness: a root holding only kustomization.yml makes
WriteFile fail while the default-name read fails. -/
theorem writeFile_nondefault_name_error_wit :
    (∀ cks, readRootFile (generateLabelTransformer plainCR cks
        (.cons "kustomization.yml" (.file (.kusDoc (synthKus []))) .nil))
        defaultKustomizationFileName =
      .error ("open " ++ defaultKustomizationFileName ++ ": no such file or directory")) ∧
    ∃ e, WriteFile constEngine plainCR
        (.cons "kustomization.yml" (.file (.kusDoc (synthKus []))) .nil) =
      .error e :=
  writeFile_nondefault_name_error constEngine plainCR
    (.cons "kustomization.yml" (.file (.kusDoc (synthKus []))) .nil)
    (by decide) (by decide)

end KCtl
